import Mathlib

/-!
Verification of the pastry snippet store (pastry.go).

The Go program keeps an ordered slice `p.texts` of snippets, each a text
with a creation time.  We embed the slice as a `List entry`, model
`time.Time` as an abstract tick count (`Nat`), Go strings reaching the
command parser as `List Char`, and the raw bytes read from a socket as
`List Nat`.  Go runtime panics (out-of-range slice indexing) are made
explicit with `Except panicKind`.
-/

deriving instance DecidableEq for Except

namespace Pastry

/-- `entry` from pastry.go: one stored snippet.  `Text` is the snippet
text and `When` the creation `time.Time`, modelled as a tick count. -/
structure entry where
  Text : String
  When : Nat
deriving DecidableEq, Repr

/-- Default entry used with `List.getD` when stating index lemmas. -/
def dEntry : entry := ⟨"", 0⟩

/-- Value of a list of decimal digit characters, most significant first. -/
def digitsVal (l : List Char) : Nat :=
  l.foldl (fun a c => 10 * a + (c.toNat - 48)) 0

/-- Go `strconv.Atoi` on the characters of the token: an optional sign
followed by at least one decimal digit; anything else is an error
(`none`).  Integers are unbounded here; the Go 64-bit range error also
lands in the caller's error branch, so the claims are unaffected. -/
def Atoi (s : List Char) : Option Int :=
  match s with
  | [] => none
  | c :: rest =>
    if c = '-' then
      if !rest.isEmpty && rest.all Char.isDigit then
        some (-(digitsVal rest : Int))
      else none
    else if c = '+' then
      if !rest.isEmpty && rest.all Char.isDigit then
        some ((digitsVal rest : Int))
      else none
    else
      if (c :: rest).all Char.isDigit then
        some ((digitsVal (c :: rest) : Int))
      else none

/-- `toIdx` from `handleReadPaste` (pastry.go lines 99-112): resolves the
command's index argument against the current store.  With a single-token
command it yields `len(p.texts) - 1` (no emptiness check, hence `-1` on
an empty store); otherwise it parses `cmd[1]` and applies the two bounds
branches, and every other token is an `Out of bounds` error. -/
def toIdx (texts : List entry) (cmd : List (List Char)) : Except String Int :=
  if cmd.length = 1 then
    Except.ok ((texts.length : Int) - 1)
  else
    match cmd[1]? with
    | some tok =>
      match Atoi tok with
      | some v =>
        if 0 ≤ v ∧ v < (texts.length : Int) then Except.ok v
        else if v ≤ 0 ∧ 0 ≤ (texts.length : Int) + v then
          Except.ok ((texts.length : Int) + v)
        else Except.error "Out of bounds"
      | none => Except.error "Out of bounds"
    | none => Except.error "Out of bounds"

/-- Go runtime panics we model explicitly. -/
inductive panicKind where
  | indexOutOfRange
deriving DecidableEq, Repr

/-- Go slice indexing `p.texts[i]`: the value when `0 ≤ i < len`, a
runtime panic otherwise. -/
def sliceIndex (l : List entry) (i : Int) : Except panicKind entry :=
  if h : 0 ≤ i ∧ i.toNat < l.length then Except.ok (l.get ⟨i.toNat, h.2⟩)
  else Except.error panicKind.indexOutOfRange

/-- What one read-port connection observes from the handler: the strings
written to the socket, and whether the handler hit a runtime panic
(a panic happens before the corresponding write). -/
structure connOutput where
  writes : List String
  panicked : Bool
deriving DecidableEq, Repr

/-- The `case "get"` branch of `handleReadPaste` (lines 115-118):
resolve the index, write the snippet text on success; a resolution
error writes nothing; an out-of-range resolved index panics. -/
def handleGet (texts : List entry) (cmd : List (List Char)) : connOutput :=
  match toIdx texts cmd with
  | Except.ok i =>
    match sliceIndex texts i with
    | Except.ok e => ⟨[e.Text], false⟩
    | Except.error _ => ⟨[], true⟩
  | Except.error _ => ⟨[], false⟩

/-- Lines 88-91 of `handleReadPaste`: when the read errors or returns no
bytes, write `p.texts[len(p.texts)-1].Text`.  The indexing expression is
evaluated before `c.Write`, so on an empty store the handler panics
having written nothing. -/
def readFallback (texts : List entry) : connOutput :=
  match sliceIndex texts ((texts.length : Int) - 1) with
  | Except.ok e => ⟨[e.Text], false⟩
  | Except.error _ => ⟨[], true⟩

/-- Result of one `c.Read`: the bytes received and whether the read
returned an error (deadline hit, connection closed, EOF). -/
structure readResult where
  bytes : List Nat
  isErr : Bool
deriving DecidableEq, Repr

/-- The guard of line 88: `err != nil || n == 0`. -/
def noDataCase (r : readResult) : Bool :=
  r.isErr || r.bytes.isEmpty

/-- Serialized characters of a string: a length header followed by the
code points. -/
def encodeString (s : String) : List Nat :=
  s.toList.length :: s.toList.map Char.toNat

/-- Serialized form of one `entry`: its text then its timestamp. -/
def encodeEntry (e : entry) : List Nat :=
  encodeString e.Text ++ [e.When]

/-- Serialized entries, one after the other. -/
def encodeBody : List entry → List Nat
  | [] => []
  | e :: rest => encodeEntry e ++ encodeBody rest

/-- Modelled from the spec: the persistence adapter (`encoding/gob` over
`[]*entry`, library code not under src/) writes "a serialized ordered
collection of Snippets (text + timestamp)" to the cache file, a format
"only self-consistent across save/load cycles of the same
implementation".  We realize it as an executable byte-stream codec: a
count of entries followed by each entry's length-prefixed text and its
timestamp. -/
def encodeEntries (l : List entry) : List Nat :=
  l.length :: encodeBody l

/-- Read back `n` characters of a serialized string. -/
def decodeChars : Nat → List Nat → Option (List Char × List Nat)
  | 0, rest => some ([], rest)
  | _ + 1, [] => none
  | n + 1, b :: rest =>
    match decodeChars n rest with
    | some (cs, rest2) => some (Char.ofNat b :: cs, rest2)
    | none => none

/-- Read back one serialized `entry`. -/
def decodeEntry (bs : List Nat) : Option (entry × List Nat) :=
  match bs with
  | [] => none
  | n :: rest =>
    match decodeChars n rest with
    | some (cs, rest2) =>
      match rest2 with
      | [] => none
      | w :: rest3 => some (⟨String.mk cs, w⟩, rest3)
    | none => none

/-- Read back `n` serialized entries. -/
def decodeEntriesAux : Nat → List Nat → Option (List entry × List Nat)
  | 0, rest => some ([], rest)
  | n + 1, bs =>
    match decodeEntry bs with
    | some (e, rest) =>
      match decodeEntriesAux n rest with
      | some (l, rest2) => some (e :: l, rest2)
      | none => none
    | none => none

/-- Modelled from the spec: the persistence adapter's load side
(`gob.NewDecoder(f).Decode(&p.texts)`), inverse direction of
`encodeEntries`. -/
def decodeEntries (bs : List Nat) : Option (List entry) :=
  match bs with
  | [] => none
  | n :: rest =>
    match decodeEntriesAux n rest with
    | some (l, _) => some l
    | none => none

/-- The persistence-relevant state of the `pastry` struct: the in-memory
collection `texts` and the current bytes of the cache file (`none` when
no file has been written yet). -/
structure pastryState where
  texts : List entry
  cache : Option (List Nat)
deriving DecidableEq, Repr

/-- `addText` (pastry.go lines 55-64): append a new entry with the
current time, then rewrite the cache file with the whole collection
(`os.Create` assumed to succeed; on failure the file is simply left as
it was, which no claim here depends on). -/
def addText (s : pastryState) (text : String) (now : Nat) : pastryState :=
  let texts := s.texts ++ [⟨text, now⟩]
  { texts := texts, cache := some (encodeEntries texts) }

/-- Startup load (pastry.go lines 224-227): decode the cache file into
`p.texts`; a missing or undecodable file leaves the collection empty. -/
def loadStore (cache : Option (List Nat)) : List entry :=
  match cache with
  | some bs => (decodeEntries bs).getD []
  | none => []

/-- The slice expression of line 151,
`append(p.texts[:i], p.texts[i+1:]...)`: removal of index `i` when
`0 ≤ i < len`, a runtime panic otherwise.  (Go would panic on
`p.texts[i+1:]` for `i = len` too whenever the slice has no spare
capacity; we model a store without spare capacity.) -/
def dropAt (l : List entry) (i : Int) : Except panicKind (List entry) :=
  if 0 ≤ i ∧ i.toNat + 1 ≤ l.length then
    Except.ok (l.take i.toNat ++ l.drop (i.toNat + 1))
  else Except.error panicKind.indexOutOfRange

/-- The `case "drop"` branch of `handleReadPaste` (lines 149-152):
resolve the index and remove the entry; a resolution error leaves the
state unchanged.  Nothing is written to the cache file here — only
`addText` persists. -/
def handleDrop (s : pastryState) (cmd : List (List Char)) :
    Except panicKind pastryState :=
  match toIdx s.texts cmd with
  | Except.ok i =>
    match dropAt s.texts i with
    | Except.ok texts => Except.ok { s with texts := texts }
    | Except.error p => Except.error p
  | Except.error _ => Except.ok s

/-- A UTF-8 continuation byte, `0x80..0xBF`. -/
def utf8Cont (b : Nat) : Bool :=
  0x80 ≤ b && b ≤ 0xBF

/-- Go `utf8.Valid` on the received bytes: standard UTF-8 well-formedness
(ASCII; C2-DF, E0/E1-EC/ED/EE-EF, F0/F1-F3/F4 lead bytes with their
restricted first continuation ranges excluding overlongs and
surrogates). -/
def utf8ValidList : List Nat → Bool
  | [] => true
  | b :: rest =>
    if b ≤ 0x7F then utf8ValidList rest
    else if 0xC2 ≤ b && b ≤ 0xDF then
      match rest with
      | b1 :: rest2 => utf8Cont b1 && utf8ValidList rest2
      | [] => false
    else if b = 0xE0 then
      match rest with
      | b1 :: b2 :: rest2 =>
        (0xA0 ≤ b1 && b1 ≤ 0xBF) && utf8Cont b2 && utf8ValidList rest2
      | _ => false
    else if (0xE1 ≤ b && b ≤ 0xEC) || b = 0xEE || b = 0xEF then
      match rest with
      | b1 :: b2 :: rest2 => utf8Cont b1 && utf8Cont b2 && utf8ValidList rest2
      | _ => false
    else if b = 0xED then
      match rest with
      | b1 :: b2 :: rest2 =>
        (0x80 ≤ b1 && b1 ≤ 0x9F) && utf8Cont b2 && utf8ValidList rest2
      | _ => false
    else if b = 0xF0 then
      match rest with
      | b1 :: b2 :: b3 :: rest2 =>
        (0x90 ≤ b1 && b1 ≤ 0xBF) && utf8Cont b2 && utf8Cont b3 &&
          utf8ValidList rest2
      | _ => false
    else if 0xF1 ≤ b && b ≤ 0xF3 then
      match rest with
      | b1 :: b2 :: b3 :: rest2 =>
        utf8Cont b1 && utf8Cont b2 && utf8Cont b3 && utf8ValidList rest2
      | _ => false
    else if b = 0xF4 then
      match rest with
      | b1 :: b2 :: b3 :: rest2 =>
        (0x80 ≤ b1 && b1 ≤ 0x8F) && utf8Cont b2 && utf8Cont b3 &&
          utf8ValidList rest2
      | _ => false
    else false

/-- One step of Go's byte-to-string UTF-8 decoding, fuelled by an upper
bound on the number of runes still to decode (one byte yields at most
one rune, so the byte count is enough fuel).  Each undecodable lead byte
becomes U+FFFD and decoding resumes at the next byte. -/
def utf8DecodeAux : Nat → List Nat → List Char
  | _, [] => []
  | 0, _ :: _ => []
  | fuel + 1, b :: rest =>
    if b ≤ 0x7F then Char.ofNat b :: utf8DecodeAux fuel rest
    else if 0xC2 ≤ b && b ≤ 0xDF then
      match rest with
      | b1 :: rest2 =>
        if utf8Cont b1 then
          Char.ofNat ((b - 0xC0) * 0x40 + (b1 - 0x80)) :: utf8DecodeAux fuel rest2
        else Char.ofNat 0xFFFD :: utf8DecodeAux fuel rest
      | [] => Char.ofNat 0xFFFD :: utf8DecodeAux fuel rest
    else if 0xE0 ≤ b && b ≤ 0xEF then
      match rest with
      | b1 :: b2 :: rest2 =>
        if (if b = 0xE0 then 0xA0 ≤ b1 && b1 ≤ 0xBF
            else if b = 0xED then 0x80 ≤ b1 && b1 ≤ 0x9F
            else utf8Cont b1) && utf8Cont b2 then
          Char.ofNat ((b - 0xE0) * 0x1000 + (b1 - 0x80) * 0x40 + (b2 - 0x80)) ::
            utf8DecodeAux fuel rest2
        else Char.ofNat 0xFFFD :: utf8DecodeAux fuel rest
      | _ => Char.ofNat 0xFFFD :: utf8DecodeAux fuel rest
    else if 0xF0 ≤ b && b ≤ 0xF4 then
      match rest with
      | b1 :: b2 :: b3 :: rest2 =>
        if (if b = 0xF0 then 0x90 ≤ b1 && b1 ≤ 0xBF
            else if b = 0xF4 then 0x80 ≤ b1 && b1 ≤ 0x8F
            else utf8Cont b1) && utf8Cont b2 && utf8Cont b3 then
          Char.ofNat ((b - 0xF0) * 0x40000 + (b1 - 0x80) * 0x1000 +
              (b2 - 0x80) * 0x40 + (b3 - 0x80)) :: utf8DecodeAux fuel rest2
        else Char.ofNat 0xFFFD :: utf8DecodeAux fuel rest
      | _ => Char.ofNat 0xFFFD :: utf8DecodeAux fuel rest
    else Char.ofNat 0xFFFD :: utf8DecodeAux fuel rest

/-- Go's `string(buf[:n])` byte-to-string conversion. -/
def utf8DecodeList (bs : List Nat) : List Char :=
  utf8DecodeAux bs.length bs

/-- `handleWritePaste` (pastry.go lines 66-75): one read from the
connection; when it succeeded with at least one byte of valid UTF-8, the
decoded text is appended via `addText`; in every other case the state is
untouched.  The handler never writes to the connection, so the second
component (bytes sent back to the client) is always empty. -/
def handleWritePaste (s : pastryState) (r : readResult) (now : Nat) :
    pastryState × List String :=
  if !r.isErr && 0 < r.bytes.length then
    if utf8ValidList r.bytes then
      (addText s (String.mk (utf8DecodeList r.bytes)) now, [])
    else (s, [])
  else (s, [])

/-- Does the first list occur at the very start of the second?
(`strings.HasPrefix` over characters; helper for `strings.Index` and
`strings.Cut`.) -/
def startsWith : List Char → List Char → Bool
  | [], _ => true
  | _ :: _, [] => false
  | p :: ps, c :: cs => p = c && startsWith ps cs

/-- `strings.Index(l, m) != -1`: does the needle `m` occur as a
contiguous substring of `l`? -/
def containsSub (m : List Char) : List Char → Bool
  | [] => startsWith m []
  | c :: rest => startsWith m (c :: rest) || containsSub m rest

/-- `strings.Split(s, sep)` for a one-character separator, as used with
`"\n"` on line 123: the groups between occurrences of `sep`; always at
least one (possibly empty) group. -/
def splitOnChar (sep : Char) : List Char → List (List Char)
  | [] => [[]]
  | c :: rest =>
    if c = sep then [] :: splitOnChar sep rest
    else
      match splitOnChar sep rest with
      | [] => [[c]]
      | g :: gs => (c :: g) :: gs

/-- The lines of a snippet: `strings.Split(p.texts[i].Text, "\n")`. -/
def linesOf (e : entry) : List (List Char) :=
  splitOnChar '\n' e.Text.toList

/-- The `after` component of `strings.Cut(s, sep)`: the part of `s`
following the first occurrence of `sep`, or `none` when `sep` does not
occur (Go then gives `after = ""` with `found = false`). -/
def cutAfter (sep : List Char) : List Char → Option (List Char)
  | [] => if startsWith sep [] then some [] else none
  | c :: rest =>
    if startsWith sep (c :: rest) then some ((c :: rest).drop sep.length)
    else cutAfter sep rest

/-- Line 121, `_, m, _ := strings.Cut(s, "grep ")`: the grep search term
extracted from the newline-stripped command string; everything after the
first `"grep "`, or `""` when there is none. -/
def grepTermOf (str : List Char) : List Char :=
  (cutAfter ("grep ".toList) str).getD []

/-- The inner loop of the `case "grep"` branch (lines 123-132) for
snippet index `i`: scan the lines, `num` lines already consumed, and
emit `(i, line number, line)` for every line containing the term. -/
def grepLinesAux (i : Nat) (m : List Char) : Nat → List (List Char) →
    List (Nat × Nat × List Char)
  | _, [] => []
  | num, l :: rest =>
    (if containsSub m l then [(i, num + 1, l)] else []) ++
      grepLinesAux i m (num + 1) rest

/-- The outer loop of the `case "grep"` branch (lines 122-133), starting
at snippet index `i`. -/
def grepAux (m : List Char) : Nat → List entry → List (Nat × Nat × List Char)
  | _, [] => []
  | i, e :: rest => grepLinesAux i m 0 (linesOf e) ++ grepAux m (i + 1) rest

/-- The rows written by the `case "grep"` branch of `handleReadPaste`
(lines 119-134): each row carries the snippet index, the 1-based line
number and the matched line (the humanized-age column rendered between
them is presentation of `When` and carries no further data). -/
def grepOut (texts : List entry) (m : List Char) : List (Nat × Nat × List Char) :=
  grepAux m 0 texts

/-- All lines of one snippet (index `i`), numbered from `num + 1` on. -/
def allLinesFrom (i : Nat) : Nat → List (List Char) → List (Nat × Nat × List Char)
  | _, [] => []
  | num, l :: rest => (i, num + 1, l) :: allLinesFrom i (num + 1) rest

/-- Every line of every snippet with its snippet index and 1-based line
number, in store order then line order; what `grepOut` degenerates to
when every line matches. -/
def allLinesAux : Nat → List entry → List (Nat × Nat × List Char)
  | _, [] => []
  | i, e :: rest => allLinesFrom i 0 (linesOf e) ++ allLinesAux (i + 1) rest

/-- All lines of the store, indexed. -/
def allLines (texts : List entry) : List (Nat × Nat × List Char) :=
  allLinesAux 0 texts

/-- `strings.Trim(text, "\n")` on line 144: leading and trailing newline
characters removed. -/
def trimNL (s : String) : List Char :=
  ((s.toList.dropWhile (fun c => c = '\n')).reverse.dropWhile
    (fun c => c = '\n')).reverse

/-- The rows written by the `case "list"` branch (lines 138-146) from
snippet index `i` on: each row carries the snippet index and the
newline-trimmed text (again the humanized-age column is presentation of
`When`). -/
def listOutAux : Nat → List entry → List (Nat × List Char)
  | _, [] => []
  | i, e :: rest => (i, trimNL e.Text) :: listOutAux (i + 1) rest

/-- The rows written by the `case "list"` branch of `handleReadPaste`. -/
def listOut (texts : List entry) : List (Nat × List Char) :=
  listOutAux 0 texts

/-- The state reached by a sequence of ingests (text with its tick)
starting from the empty store with no cache file, each going through
`addText`. -/
def storeAfter (msgs : List (String × Nat)) : pastryState :=
  msgs.foldl (fun s p => addText s p.1 p.2) ⟨[], none⟩

/-- Strict lexicographic order on grep rows: earlier snippet, or same
snippet and earlier line. -/
def rowLt (a b : Nat × Nat × List Char) : Prop :=
  a.1 < b.1 ∨ (a.1 = b.1 ∧ a.2.1 < b.2.1)

/-- C1 (amended): for a store of length `L` and an explicit integer
token `v`, resolution yields `v` when `0 ≤ v < L`; otherwise, when
`v ≤ 0` and `L + v ≥ 0`, it yields `L + v`; every other token —
integers satisfying neither rule as well as non-integer tokens — yields
the `Out of bounds` error.  (The original claim omitted the precedence
of the first rule: at `v = 0` with `L > 0` both of its conditions hold
and the code resolves to `v`, not `L + v`.) -/
theorem toIdx_explicit_resolution (texts : List entry) (cmd : List (List Char))
    (tok : List Char) (hlen : ¬cmd.length = 1) (htok : cmd[1]? = some tok) :
    (∀ v : Int, Atoi tok = some v →
      ((0 ≤ v ∧ v < (texts.length : Int)) → toIdx texts cmd = Except.ok v) ∧
      (¬(0 ≤ v ∧ v < (texts.length : Int)) →
        (v ≤ 0 ∧ 0 ≤ (texts.length : Int) + v) →
        toIdx texts cmd = Except.ok ((texts.length : Int) + v)) ∧
      (¬(0 ≤ v ∧ v < (texts.length : Int)) →
        ¬(v ≤ 0 ∧ 0 ≤ (texts.length : Int) + v) →
        toIdx texts cmd = Except.error "Out of bounds")) ∧
    (Atoi tok = none → toIdx texts cmd = Except.error "Out of bounds") := by
  unfold toIdx
  rw [if_neg hlen]
  simp only [htok]
  constructor
  · intro v hv
    simp only [hv]
    refine ⟨fun h1 => ?_, fun h1 h2 => ?_, fun h1 h2 => ?_⟩
    · simp only [if_pos h1]
    · simp only [if_neg h1, if_pos h2]
    · simp only [if_neg h1, if_neg h2]
  · intro hn
    simp only [hn]

/-- Witness for C1 at a concrete input: on a store of length 2 the
token `-1` resolves to `2 + (-1) = 1`. -/
theorem toIdx_explicit_resolution_witness :
    toIdx [⟨"a", 0⟩, ⟨"b", 1⟩] [['g','e','t'], ['-','1']] = Except.ok 1 := by
  have h :=
    ((toIdx_explicit_resolution [⟨"a", 0⟩, ⟨"b", 1⟩] [['g','e','t'], ['-','1']]
        ['-','1'] (by decide) (by decide)).1 (-1) (by decide)).2.1
      (by decide) (by decide)
  simpa using h

/-- C1 counterexample: on a store of length 1 the explicit token `0`
satisfies the claim's offset-from-end rule (`v ≤ 0` and `L + v ≥ 0`),
yet the code resolves it to `0`, not to `L + v = 1`. -/
theorem toIdx_zero_token_cex :
    Atoi ['0'] = some 0 ∧ ((0 : Int) ≤ 0 ∧ 0 ≤ (1 : Int) + 0) ∧
    toIdx [⟨"a", 0⟩] [['g','e','t'], ['0']] = Except.ok 0 ∧
    toIdx [⟨"a", 0⟩] [['g','e','t'], ['0']] ≠ Except.ok ((1 : Int) + 0) := by
  decide

/-- C2: the code does not bounds-check the empty store: a bare `get`
resolves to `-1` with no error and the handler indexes `p.texts[-1]`
(runtime panic), and an explicit `get 0` on the empty store resolves to
`0` with no error and panics likewise — where the claim demands an
error and no out-of-range access. -/
theorem emptyStore_get_unchecked :
    toIdx ([] : List entry) [['g','e','t']] = Except.ok (-1) ∧
    (handleGet [] [['g','e','t']]).panicked = true ∧
    (handleGet [] [['g','e','t']]).writes = [] ∧
    toIdx ([] : List entry) [['g','e','t'], ['0']] = Except.ok 0 ∧
    (handleGet [] [['g','e','t'], ['0']]).panicked = true := by
  decide

/-- C9: a write-port read that errored, delivered zero bytes, or
delivered bytes that are not valid UTF-8 leaves the collection exactly
as it was, and the handler sends nothing back to the client. -/
theorem writePaste_invalid_unchanged (s : pastryState) (r : readResult)
    (now : Nat) (h : utf8ValidList r.bytes = false ∨ r.bytes = [] ∨ r.isErr = true) :
    handleWritePaste s r now = (s, []) := by
  unfold handleWritePaste
  rcases h with h | h | h
  · split
    · rw [h]
      simp
    · rfl
  · rw [h]
    simp
  · rw [h]
    simp

/-- Witness for C9: the single byte `0xFF` is not valid UTF-8 and the
empty store stays empty, with nothing written back. -/
theorem writePaste_invalid_unchanged_witness :
    handleWritePaste ⟨[], none⟩ ⟨[0xFF], false⟩ 7 = (⟨[], none⟩, []) :=
  writePaste_invalid_unchanged ⟨[], none⟩ ⟨[0xFF], false⟩ 7 (Or.inl (by decide))

/-- C3 (amended): `drop` with a successfully resolved in-range index
removes exactly that snippet, and leaves the cache file untouched: no
persist is triggered (only `addText` writes the cache file), so the
file keeps the collection as of the last append. -/
theorem handleDrop_removes_no_persist (s : pastryState) (cmd : List (List Char))
    (i : Int) (hres : toIdx s.texts cmd = Except.ok i) (h0 : 0 ≤ i)
    (h1 : i.toNat < s.texts.length) :
    handleDrop s cmd =
      Except.ok ⟨s.texts.take i.toNat ++ s.texts.drop (i.toNat + 1), s.cache⟩ := by
  have hd : dropAt s.texts i =
      Except.ok (s.texts.take i.toNat ++ s.texts.drop (i.toNat + 1)) := by
    unfold dropAt
    rw [if_pos ⟨h0, Nat.succ_le_of_lt h1⟩]
  simp only [handleDrop, hres, hd]

/-- Witness for C3 (amended) at a concrete input: dropping index 0 of a
two-entry store with no cache file removes the first entry and writes
no cache file. -/
theorem handleDrop_removes_no_persist_witness :
    handleDrop ⟨[⟨"a", 0⟩, ⟨"b", 1⟩], none⟩ [['d','r','o','p'], ['0']] =
      Except.ok ⟨([⟨"a", 0⟩, ⟨"b", 1⟩] : List entry).take 0 ++
        ([⟨"a", 0⟩, ⟨"b", 1⟩] : List entry).drop 1, none⟩ :=
  handleDrop_removes_no_persist ⟨[⟨"a", 0⟩, ⟨"b", 1⟩], none⟩
    [['d','r','o','p'], ['0']] 0 (by decide) (by decide) (by decide)

/-- C3 counterexample: append "a" then "b" (the cache file now holds
both), then drop index 0.  The store becomes `["b"]` but the cache file
still serializes `["a", "b"]`, not the post-drop collection. -/
theorem drop_no_persist_cex :
    handleDrop (addText (addText ⟨[], none⟩ "a" 0) "b" 1)
        [['d','r','o','p'], ['0']] =
      Except.ok ⟨[⟨"b", 1⟩], some (encodeEntries [⟨"a", 0⟩, ⟨"b", 1⟩])⟩ ∧
    some (encodeEntries [⟨"a", 0⟩, ⟨"b", 1⟩]) ≠ some (encodeEntries [⟨"b", 1⟩]) := by
  decide

/-- C5: for any valid index `i < length`, the drop expression succeeds
and yields a collection one shorter in which every entry below `i` is
unmoved and every entry above `i` has shifted down by one (so relative
order is preserved). -/
theorem dropAt_valid_shifts (l : List entry) (i : Nat) (h : i < l.length) :
    dropAt l (i : Int) = Except.ok (l.take i ++ l.drop (i + 1)) ∧
    (l.take i ++ l.drop (i + 1)).length = l.length - 1 ∧
    (∀ j, j < i → (l.take i ++ l.drop (i + 1)).getD j dEntry = l.getD j dEntry) ∧
    (∀ j, i < j → j < l.length →
      (l.take i ++ l.drop (i + 1)).getD (j - 1) dEntry = l.getD j dEntry) := by
  have htake : (l.take i).length = i := by
    rw [List.length_take]
    omega
  refine ⟨?_, ?_, ?_, ?_⟩
  · unfold dropAt
    rw [if_pos]
    · simp
    · refine ⟨Int.natCast_nonneg i, ?_⟩
      simpa using h
  · rw [List.length_append, htake, List.length_drop]
    omega
  · intro j hj
    rw [List.getD_eq_getElem?_getD, List.getD_eq_getElem?_getD,
      List.getElem?_append_left (by omega : j < (l.take i).length),
      List.getElem?_take_of_lt hj]
  · intro j hij hjl
    rw [List.getD_eq_getElem?_getD, List.getD_eq_getElem?_getD,
      List.getElem?_append_right (by omega : (l.take i).length ≤ j - 1)]
    rw [htake, List.getElem?_drop]
    have harith : i + 1 + (j - 1 - i) = j := by omega
    rw [harith]

/-- Witness for C5 at a concrete input: dropping index 1 of a
three-entry store. -/
theorem dropAt_valid_shifts_witness :
    dropAt [⟨"a", 0⟩, ⟨"b", 1⟩, ⟨"c", 2⟩] ((1 : Nat) : Int) =
      Except.ok (([⟨"a", 0⟩, ⟨"b", 1⟩, ⟨"c", 2⟩] : List entry).take 1 ++
        ([⟨"a", 0⟩, ⟨"b", 1⟩, ⟨"c", 2⟩] : List entry).drop 2) :=
  (dropAt_valid_shifts [⟨"a", 0⟩, ⟨"b", 1⟩, ⟨"c", 2⟩] 1 (by decide)).1

/-- C4: on the no-data path (read deadline hit, connection closed, or
zero bytes) the handler writes exactly the last snippet's text, and
writes nothing when the collection is empty (there the indexing panics
before the write is reached). -/
theorem readFallback_latest (texts : List entry) :
    (readFallback texts).writes =
      (match texts.getLast? with
       | some e => [e.Text]
       | none => []) := by
  rcases List.eq_nil_or_concat texts with rfl | ⟨l, a, rfl⟩
  · rfl
  · rw [List.concat_eq_append, List.getLast?_concat]
    unfold readFallback sliceIndex
    have hidx : (((l ++ [a]).length : Int) - 1).toNat = l.length := by
      simp
    have hcond : 0 ≤ ((l ++ [a]).length : Int) - 1 ∧
        (((l ++ [a]).length : Int) - 1).toNat < (l ++ [a]).length := by
      rw [hidx]
      simp
    rw [dif_pos hcond]
    simp only [List.get_eq_getElem]
    congr 2
    rw [List.getElem_eq_iff]
    rw [hidx]
    simp [List.getElem?_concat_length]

/-- Characters survive the serialize/deserialize pair. -/
theorem decodeChars_encode (cs : List Char) (rest : List Nat) :
    decodeChars cs.length (cs.map Char.toNat ++ rest) = some (cs, rest) := by
  induction cs generalizing rest with
  | nil => rfl
  | cons c cs ih =>
    simp [decodeChars, ih, Char.ofNat_toNat]

/-- One entry survives the serialize/deserialize pair. -/
theorem decodeEntry_encode (e : entry) (rest : List Nat) :
    decodeEntry (encodeEntry e ++ rest) = some (e, rest) := by
  obtain ⟨t, w⟩ := e
  obtain ⟨data⟩ := t
  have h := decodeChars_encode (String.mk data).toList (w :: rest)
  simp only [encodeEntry, encodeString, List.cons_append, List.append_assoc,
    List.singleton_append, List.nil_append, decodeEntry, h]
  rfl

/-- A list of entries survives the serialize/deserialize pair. -/
theorem decodeEntriesAux_encode (l : List entry) (rest : List Nat) :
    decodeEntriesAux l.length (encodeBody l ++ rest) = some (l, rest) := by
  induction l generalizing rest with
  | nil => rfl
  | cons e es ih =>
    simp [decodeEntriesAux, encodeBody, List.append_assoc, decodeEntry_encode,
      ih]

/-- C8: persisting a collection and loading it back is the identity:
the decoded cache file holds the same ordered sequence of
(text, timestamp) entries, and the startup load reconstructs exactly
the saved collection. -/
theorem save_load_roundtrip (l : List entry) :
    decodeEntries (encodeEntries l) = some l ∧
    loadStore (some (encodeEntries l)) = l := by
  have h : decodeEntries (encodeEntries l) = some l := by
    have h2 := decodeEntriesAux_encode l []
    rw [List.append_nil] at h2
    simp [decodeEntries, encodeEntries, h2]
  exact ⟨h, by simp [loadStore, h]⟩

/-- The collection built by a fold of appends is the messages in
order. -/
theorem storeAfter_texts (msgs : List (String × Nat)) :
    (storeAfter msgs).texts = msgs.map (fun p => (⟨p.1, p.2⟩ : entry)) := by
  suffices h : ∀ s : pastryState,
      (msgs.foldl (fun s p => addText s p.1 p.2) s).texts =
        s.texts ++ msgs.map (fun p => (⟨p.1, p.2⟩ : entry)) by
    simpa using h ⟨[], none⟩
  induction msgs with
  | nil => intro s; simp
  | cons p ps ih =>
    intro s
    rw [List.foldl_cons, ih]
    simp [addText]

/-- The indices of the list rows count up from `i`. -/
theorem listOutAux_fst (ts : List entry) :
    ∀ i, (listOutAux i ts).map Prod.fst = List.range' i ts.length := by
  induction ts with
  | nil => intro i; rfl
  | cons e es ih =>
    intro i
    simp [listOutAux, List.range'_succ, ih]

/-- The texts of the list rows are the stored texts, trimmed, in
order. -/
theorem listOutAux_snd (ts : List entry) :
    ∀ i, (listOutAux i ts).map Prod.snd = ts.map (fun e => trimNL e.Text) := by
  induction ts with
  | nil => intro i; rfl
  | cons e es ih =>
    intro i
    simp [listOutAux, ih]

/-- C7: after any sequence of appends from the empty store, `list`
emits one row per snippet, labelled `0, 1, ..., length - 1` in order,
whose texts are the appended texts (newline-trimmed) in exact insertion
order; the underlying collection is the appended messages in insertion
order. -/
theorem list_insertion_order (msgs : List (String × Nat)) :
    (listOut (storeAfter msgs).texts).map Prod.fst =
      List.range (storeAfter msgs).texts.length ∧
    (listOut (storeAfter msgs).texts).map Prod.snd =
      msgs.map (fun p => trimNL p.1) ∧
    (storeAfter msgs).texts.map entry.Text = msgs.map Prod.fst ∧
    (storeAfter msgs).texts.length = msgs.length := by
  refine ⟨?_, ?_, ?_, ?_⟩
  · rw [listOut, listOutAux_fst, List.range_eq_range']
  · rw [listOut, listOutAux_snd, storeAfter_texts, List.map_map]
    rfl
  · rw [storeAfter_texts, List.map_map]
    rfl
  · rw [storeAfter_texts, List.length_map]

/-- `startsWith` finds exactly the lists beginning with the pattern. -/
theorem startsWith_iff (p : List Char) :
    ∀ l, startsWith p l = true ↔ ∃ t, l = p ++ t := by
  induction p with
  | nil =>
    intro l
    simp [startsWith]
  | cons p ps ih =>
    intro l
    cases l with
    | nil => simp [startsWith]
    | cons c cs =>
      simp only [startsWith, Bool.and_eq_true, decide_eq_true_eq, ih,
        List.cons_append]
      constructor
      · rintro ⟨rfl, t, rfl⟩
        exact ⟨t, rfl⟩
      · rintro ⟨t, ht⟩
        injection ht with h1 h2
        exact ⟨h1.symm, t, h2⟩

/-- `containsSub` (the `strings.Index(l, m) != -1` test) holds exactly
when the needle occurs as a contiguous substring. -/
theorem containsSub_iff (m : List Char) :
    ∀ l, containsSub m l = true ↔ ∃ pre post, l = pre ++ m ++ post := by
  intro l
  induction l with
  | nil =>
    simp only [containsSub, startsWith_iff]
    constructor
    · rintro ⟨t, ht⟩
      exact ⟨[], t, by simpa using ht⟩
    · rintro ⟨pre, post, h⟩
      have h2 := h.symm
      rw [List.append_eq_nil] at h2
      obtain ⟨h3, h4⟩ := h2
      rw [List.append_eq_nil] at h3
      exact ⟨post, by simp [h3.2, h4]⟩
  | cons c cs ih =>
    simp only [containsSub, Bool.or_eq_true, startsWith_iff, ih]
    constructor
    · rintro (⟨t, ht⟩ | ⟨pre, post, hp⟩)
      · exact ⟨[], t, by simpa using ht⟩
      · exact ⟨c :: pre, post, by simp [hp]⟩
    · rintro ⟨pre, post, hp⟩
      cases pre with
      | nil => exact Or.inl ⟨post, by simpa using hp⟩
      | cons x xs =>
        simp only [List.cons_append, List.append_assoc] at hp
        injection hp with h1 h2
        exact Or.inr ⟨xs, post, by simpa [List.append_assoc] using h2⟩

/-- Membership in the inner grep loop: row `(j, n, l)` appears exactly
for the matching lines, with line numbers offset by the lines already
consumed. -/
theorem mem_grepLinesAux (i : Nat) (m : List Char) (ls : List (List Char)) :
    ∀ num j n l, (j, n, l) ∈ grepLinesAux i m num ls ↔
      (j = i ∧ ∃ k, k < ls.length ∧ n = num + k + 1 ∧ l = ls.getD k [] ∧
        containsSub m l = true) := by
  induction ls with
  | nil =>
    intro num j n l
    simp [grepLinesAux]
  | cons hd tl ih =>
    intro num j n l
    rw [grepLinesAux, List.mem_append, ih (num + 1)]
    constructor
    · rintro (hmem | ⟨rfl, k, hk, hn, hl, hc⟩)
      · by_cases hc : containsSub m hd = true
        · rw [if_pos hc] at hmem
          simp only [List.mem_singleton, Prod.mk.injEq] at hmem
          obtain ⟨rfl, rfl, rfl⟩ := hmem
          exact ⟨rfl, 0, by simp, by omega, by simp, hc⟩
        · rw [if_neg hc] at hmem
          simp at hmem
      · exact ⟨rfl, k + 1, by simpa using hk, by omega, by simpa using hl, hc⟩
    · rintro ⟨rfl, k, hk, hn, hl, hc⟩
      cases k with
      | zero =>
        left
        have hl2 : l = hd := by simpa using hl
        have hn2 : n = num + 1 := by omega
        subst hl2 hn2
        rw [if_pos hc]
        simp
      | succ k =>
        right
        exact ⟨rfl, k, by simpa using hk, by omega, by simpa using hl, hc⟩

/-- Membership in the outer grep loop: row `(j, n, l)` appears exactly
for snippets from index `i0` on whose lines match. -/
theorem mem_grepAux (m : List Char) (ts : List entry) :
    ∀ i0 j n l, (j, n, l) ∈ grepAux m i0 ts ↔
      ∃ k, k < ts.length ∧ j = i0 + k ∧
        (∃ k2, k2 < (linesOf (ts.getD k dEntry)).length ∧ n = k2 + 1 ∧
          l = (linesOf (ts.getD k dEntry)).getD k2 [] ∧
          containsSub m l = true) := by
  induction ts with
  | nil =>
    intro i0 j n l
    simp [grepAux]
  | cons e es ih =>
    intro i0 j n l
    rw [grepAux, List.mem_append, mem_grepLinesAux, ih (i0 + 1)]
    constructor
    · rintro (⟨rfl, k2, hk2, hn, hl, hc⟩ | ⟨k, hk, rfl, k2, hk2, hn, hl, hc⟩)
      · exact ⟨0, by simp, by omega, k2, by simpa using hk2, by omega,
          by simpa using hl, hc⟩
      · exact ⟨k + 1, by simpa using hk, by omega, k2, by simpa using hk2,
          by omega, by simpa using hl, hc⟩
    · rintro ⟨k, hk, rfl, k2, hk2, hn, hl, hc⟩
      cases k with
      | zero =>
        left
        exact ⟨by omega, k2, by simpa using hk2, by omega, by simpa using hl,
          hc⟩
      | succ k =>
        right
        exact ⟨k, by simpa using hk, by omega, k2, by simpa using hk2,
          by omega, by simpa using hl, hc⟩

/-- The inner grep loop emits rows in strictly increasing line order. -/
theorem pairwise_grepLinesAux (i : Nat) (m : List Char) (ls : List (List Char)) :
    ∀ num, List.Pairwise rowLt (grepLinesAux i m num ls) := by
  induction ls with
  | nil =>
    intro num
    simp [grepLinesAux]
  | cons hd tl ih =>
    intro num
    rw [grepLinesAux, List.pairwise_append]
    refine ⟨?_, ih (num + 1), ?_⟩
    · split
      · simp [List.pairwise_singleton]
      · simp
    · intro a ha b hb
      obtain ⟨j1, n1, l1⟩ := a
      obtain ⟨j2, n2, l2⟩ := b
      rw [mem_grepLinesAux] at hb
      obtain ⟨rfl, k, hk, hn, hl, hc⟩ := hb
      by_cases hc1 : containsSub m hd = true
      · rw [if_pos hc1] at ha
        simp only [List.mem_singleton, Prod.mk.injEq] at ha
        obtain ⟨rfl, rfl, rfl⟩ := ha
        right
        refine ⟨rfl, ?_⟩
        show num + 1 < n2
        omega
      · rw [if_neg hc1] at ha
        simp at ha

/-- The outer grep loop emits rows in strictly increasing snippet, then
line, order. -/
theorem pairwise_grepAux (m : List Char) (ts : List entry) :
    ∀ i0, List.Pairwise rowLt (grepAux m i0 ts) := by
  induction ts with
  | nil =>
    intro i0
    simp [grepAux]
  | cons e es ih =>
    intro i0
    rw [grepAux, List.pairwise_append]
    refine ⟨pairwise_grepLinesAux i0 m (linesOf e) 0, ih (i0 + 1), ?_⟩
    intro a ha b hb
    obtain ⟨j1, n1, l1⟩ := a
    obtain ⟨j2, n2, l2⟩ := b
    rw [mem_grepLinesAux] at ha
    rw [mem_grepAux] at hb
    obtain ⟨h1, -⟩ := ha
    obtain ⟨k, -, h2, -⟩ := hb
    left
    show j1 < j2
    omega

/-- C6: `grep` emits exactly one row for every pair (snippet index,
1-based line number) whose line contains the term as a literal
substring — the rows are exactly those pairs with the matched line, and
they come in strictly increasing snippet order and, within a snippet,
strictly increasing line order (so no pair repeats). -/
theorem grep_matches_exactly (texts : List entry) (m : List Char) :
    (∀ i n l, (i, n, l) ∈ grepOut texts m ↔
      (i < texts.length ∧ ∃ k, k < (linesOf (texts.getD i dEntry)).length ∧
        n = k + 1 ∧ l = (linesOf (texts.getD i dEntry)).getD k [] ∧
        ∃ pre post, l = pre ++ m ++ post)) ∧
    List.Pairwise rowLt (grepOut texts m) := by
  constructor
  · intro i n l
    rw [grepOut, mem_grepAux]
    constructor
    · rintro ⟨k, hk, hik, k2, hk2, hn, hl, hc⟩
      have hik2 : i = k := by omega
      subst hik2
      exact ⟨hk, k2, hk2, hn, hl, (containsSub_iff m l).mp hc⟩
    · rintro ⟨hi, k2, hk2, hn, hl, hpre⟩
      exact ⟨i, hi, by omega, k2, hk2, hn, hl, (containsSub_iff m l).mpr hpre⟩
  · exact pairwise_grepAux m texts 0

/-- The empty needle is a substring of every line. -/
theorem containsSub_nil (l : List Char) : containsSub [] l = true := by
  induction l with
  | nil => rfl
  | cons c cs ih => simp [containsSub, startsWith]

/-- With the empty term the inner grep loop keeps every line. -/
theorem grepLinesAux_nil_term (i : Nat) (ls : List (List Char)) :
    ∀ num, grepLinesAux i [] num ls = allLinesFrom i num ls := by
  induction ls with
  | nil =>
    intro num
    rfl
  | cons hd tl ih =>
    intro num
    rw [grepLinesAux, allLinesFrom, if_pos (containsSub_nil hd), ih]
    rfl

/-- With the empty term the outer grep loop keeps every line of every
snippet. -/
theorem grepAux_nil_term (ts : List entry) :
    ∀ i0, grepAux [] i0 ts = allLinesAux i0 ts := by
  induction ts with
  | nil =>
    intro i0
    rfl
  | cons e es ih =>
    intro i0
    rw [grepAux, allLinesAux, grepLinesAux_nil_term, ih]

/-- C10: a bare `grep` line, or `grep ` followed by nothing, extracts
the empty search term, and grep with the empty term returns every line
of every snippet (the empty string is a substring of every line). -/
theorem grep_empty_term_all_lines :
    grepTermOf ("grep".toList) = [] ∧ grepTermOf ("grep ".toList) = [] ∧
    ∀ texts : List entry, grepOut texts [] = allLines texts := by
  refine ⟨by decide, by decide, fun texts => ?_⟩
  rw [grepOut, allLines, grepAux_nil_term]

end Pastry
